import Mathlib

/-!
Verification of the portfolio-anonymization pipeline against its design
specification.

The development shallowly embeds the three core components of the
repository:

* `data_handler.py` (`DataHandler`): streaming reservoir sampling whose
  reservoir membership is mirrored as `audio_<i>.wav` files on disk.
  Disk state is modelled as a `List ℕ` of the ordinals whose artifact
  files currently exist; the injected random source is modelled as an
  explicit draw function (one draw per offer, `draw i ≤ i`, mirroring
  `random.randint(0, idx)`).
* `pii_detector.py` (`PIIDetector.detect_pii_tokens`): a token matcher
  over a nested-dictionary phrase structure.
* `anonymizer.py` (`Anonymizer.text_anonymization` and
  `Anonymizer.audio_anonymization`): run collapsing for text and
  interval merging for audio.

All definitions are translated from the Python source; definitions whose
doc comment says they follow the specification text are the comparison
side of refinement statements.
-/

/-! ## DataHandler: artifact names and lexicographic sorting

Artifacts are written as `audio_<i>.wav`. `_delete_audio_by_index` sorts
the directory listing with the builtin `sorted`, which orders file names
lexicographically by code point. -/

/-- Character sequence of the artifact file name `audio_<i>.wav` written by
`DataHandler.__next__` for the item of ordinal `i`. -/
def filenameChars (i : ℕ) : List Char := "audio_".toList ++ Nat.toDigits 10 i ++ ".wav".toList

/-- Lexicographic strict order on character lists, by code point, as used by
Python string comparison inside `sorted`. -/
def charListLt : List Char → List Char → Bool
  | [], [] => false
  | [], _ :: _ => true
  | _ :: _, [] => false
  | a :: as, b :: bs => if a < b then true else if b < a then false else charListLt as bs

/-- File-name comparison on ordinals: `nameLe a b` holds when the artifact
name of `a` is not strictly greater than the artifact name of `b`. -/
def nameLe (a b : ℕ) : Bool := ! charListLt (filenameChars b) (filenameChars a)

/-- Insert an ordinal into a list that is sorted by artifact file name. -/
def insertByName (a : ℕ) : List ℕ → List ℕ
  | [] => [a]
  | b :: l => if nameLe a b then a :: b :: l else b :: insertByName a l

/-- Sort a list of ordinals by ascending artifact file name, embedding the
`sorted(...)` call of `DataHandler._delete_audio_by_index`. -/
def sortByName (l : List ℕ) : List ℕ := l.foldr insertByName []

/-- Numeric insertion used to express ascending numeric-ordinal order, the
order the specification prescribes for slot resolution. -/
def insertNum (a : ℕ) : List ℕ → List ℕ
  | [] => [a]
  | b :: l => if a ≤ b then a :: b :: l else b :: insertNum a l

/-- Sort a list of ordinals by ascending numeric value. -/
def sortNumeric (l : List ℕ) : List ℕ := l.foldr insertNum []

/-! ## DataHandler: reservoir state machine -/

/-- Embeds `DataHandler._delete_audio_by_index(idx)`: list the surviving
artifacts, sort them by file name, and remove the `idx`-th one; out of
range indexes leave the disk unchanged (the Python code only prints). -/
def delete_audio_by_index (disk : List ℕ) (idx : ℕ) : List ℕ :=
  match (sortByName disk).get? idx with
  | some v => disk.erase v
  | none => disk

/-- Embeds `DataHandler.delete_previous_audio`: when `current_idx > 0`,
remove the file `audio_<current_idx - 1>.wav` if it exists. `cur` is the
value of `self.current_idx` at call time. -/
def delete_previous_audio (cur : ℕ) (disk : List ℕ) : List ℕ :=
  if 0 < cur ∧ (cur - 1) ∈ disk then disk.erase (cur - 1) else disk

/-- Embeds `DataHandler._apply_reservoir_sampling(idx)` given the drawn
integer `draw` (Python `j = random.randint(0, idx)`), the capacity `k`
(`self.test_size`) and the value `cur` of `self.current_idx` at call
time. When `draw < k` the file at sorted position `draw` is removed,
otherwise `delete_previous_audio` runs. -/
def apply_reservoir_sampling (k cur draw : ℕ) (disk : List ℕ) : List ℕ :=
  if draw < k then delete_audio_by_index disk draw
  else delete_previous_audio cur disk

/-- One offer of `DataHandler.__next__` for the item of ordinal `i`: the
decoded audio is written to disk, the first `k` items are kept, and later
items go through `_apply_reservoir_sampling(i)` while `self.current_idx`
still equals `i`. -/
def stepHandler (k : ℕ) (disk : List ℕ) (i draw : ℕ) : List ℕ :=
  let disk1 := disk ++ [i]
  if i < k then disk1 else apply_reservoir_sampling k i draw disk1

/-- Disk state after streaming the items of ordinals `0, …, n-1` through
`DataHandler.__next__` with capacity `k`, starting from the empty
directory guaranteed by `_clear_raw_audio`; `draws i` is the integer the
random source returns at the offer of item `i` (used only when `i ≥ k`). -/
def runHandler (k n : ℕ) (draws : ℕ → ℕ) : List ℕ :=
  (List.range n).foldl (fun disk i => stepHandler k disk i (draws i)) []

/-- Embeds `DataHandler._finalize_test_set` as executed from the
`StopIteration` branch of `__next__` after a full run of `n` items
(`self.current_idx = n = len(self.dataset)`): one extra
`_apply_reservoir_sampling(n - 1)` trial with drawn integer
`draw ∈ [0, n-1]`. For `n = 0` Python raises inside `random.randint`,
modelled as `none`. -/
def finalize_test_set (k n draw : ℕ) (disk : List ℕ) : Option (List ℕ) :=
  if n = 0 then none else some (apply_reservoir_sampling k n draw disk)

/-- Draw sequence witnessing the mirror-invariant violation: items 2 and 3
replace slots, items 4 to 9 are rejected, item 10 draws slot 0 and item 11
is rejected. -/
def c1draws : ℕ → ℕ :=
  fun i => if i ≤ 3 then 0 else if i = 10 then 0 else if i = 11 then 5 else i

/-- C1. The claim states that for every capacity `k > 0` and every stream,
after each offer completes, the number of artifact files on disk equals
`min(itemsSeen, k)`. The code violates it: with `k = 2` and the realizable
draw sequence `c1draws` (every draw is at most its item ordinal), after the
12th offer three artifact files survive although `min 12 2 = 2`. The run:
items 2 and 3 replace slots 0; items 4 to 9 are rejected, each rejection
deleting the previous item (not the current one) and leaving disk
`[2, i]`; at item 10 the drawn slot 0 resolves through lexicographic file
name order (`audio_10.wav` sorts before `audio_2.wav`), deleting the just
written `audio_10.wav` itself; at item 11 the reject branch looks for
`audio_10.wav`, finds nothing, and deletes no file, so three files remain. -/
theorem c1_mirror_count_violation :
    (∀ i < 12, c1draws i ≤ i) ∧
    (runHandler 2 12 c1draws = [2, 9, 11] ∧
      (runHandler 2 12 c1draws).length ≠ min 12 2) := by
  refine ⟨by decide, by decide, by decide⟩

/-- C2. The claim states that with capacity `k` and the injected uniform
random source, any item has probability exactly `k / n` of occupying the
reservoir once `n` items have been seen. The code violates it: for
`k = 1`, `n = 2`, the single draw `j = randint(0, 1)` ranges over `Fin 2`,
and under both equally likely draws the disk ends as `[1]`, so item 0
occupies the reservoir with probability `0`, not `1 / 2`. -/
theorem c2_uniformity_violation :
    ((Finset.univ.filter
        (fun j : Fin 2 => (0 : ℕ) ∈ runHandler 1 2 (fun _ => (j : ℕ)))).card : ℚ) / 2
      ≠ 1 / 2 := by
  have h : (Finset.univ.filter
      (fun j : Fin 2 => (0 : ℕ) ∈ runHandler 1 2 (fun _ => (j : ℕ)))).card = 0 := by
    decide
  rw [h]
  norm_num

/-- C3. The claim states that a draw `j ≥ k` means REJECT: the newly
offered item is never retained, its artifact is removed, and all reservoir
artifacts survive. The code violates it: with `k = 1` and items `0, 1`,
the offer of item 1 draws `j = 1 ≥ k`, yet the resulting disk is `[1]` —
the new item 1 is retained and the reservoir member 0 was deleted, because
`delete_previous_audio` runs before `current_idx` is incremented and so
removes `audio_0.wav` instead of `audio_1.wav`. -/
theorem c3_reject_retains_new_item :
    runHandler 1 2 (fun _ => 1) = [1] ∧
      (0 : ℕ) ∉ runHandler 1 2 (fun _ => 1) ∧ (1 : ℕ) ∈ runHandler 1 2 (fun _ => 1) := by
  refine ⟨by decide, by decide, by decide⟩

/-- C4. The claim states that after a stream of `n ≤ k` items,
`finalize()` is a no-op. The code violates it: `_finalize_test_set`
unconditionally runs `_apply_reservoir_sampling(n - 1)`, whose draw
`j ∈ [0, n-1]` always satisfies `j < n ≤ k`, so it always deletes one
artifact. With `k = 2` and a single item, the run leaves disk `[0]` and
the only possible draw `j = 0` empties the disk. -/
theorem c4_finalize_not_noop :
    runHandler 2 1 (fun i => i) = [0] ∧
      finalize_test_set 2 1 0 (runHandler 2 1 (fun i => i)) = some [] ∧
      finalize_test_set 2 1 0 (runHandler 2 1 (fun i => i))
        ≠ some (runHandler 2 1 (fun i => i)) := by
  refine ⟨by decide, by decide, by decide⟩

/-! ## C5: slot resolution order in delete_audio_by_index -/

/-- Single-digit ordinals compare by file name exactly as they compare
numerically, because the names differ only in one digit character. -/
theorem nameLe_eq_le_of_lt_ten :
    ∀ a < 10, ∀ b < 10, nameLe a b = decide (a ≤ b) := by decide

/-- Membership in `insertNum` comes from the inserted element or the list. -/
theorem mem_insertNum {x a : ℕ} : ∀ {l : List ℕ}, x ∈ insertNum a l → x = a ∨ x ∈ l := by
  intro l
  induction l with
  | nil => intro h; exact Or.inl (by simpa [insertNum] using h)
  | cons b t ih =>
    intro h
    by_cases hab : a ≤ b
    · simpa [insertNum, hab, or_assoc] using h
    · rcases (by simpa [insertNum, hab] using h : x = b ∨ x ∈ insertNum a t) with h1 | h1
      · exact Or.inr (by simp [h1])
      · rcases ih h1 with h2 | h2
        · exact Or.inl h2
        · exact Or.inr (by simp [h2])

/-- Every element of the numerically sorted list is an element of the
original list. -/
theorem mem_of_mem_sortNumeric {x : ℕ} :
    ∀ {l : List ℕ}, x ∈ sortNumeric l → x ∈ l := by
  intro l
  induction l with
  | nil => intro h; exact absurd h (by simp [sortNumeric])
  | cons a t ih =>
    intro h
    rcases mem_insertNum (by simpa [sortNumeric] using h) with h1 | h1
    · simp [h1]
    · exact List.mem_cons_of_mem _ (ih (by simpa [sortNumeric] using h1))

/-- On single-digit data the two insertions coincide. -/
theorem insertByName_eq_insertNum {a : ℕ} (ha : a < 10) :
    ∀ {l : List ℕ}, (∀ b ∈ l, b < 10) → insertByName a l = insertNum a l := by
  intro l
  induction l with
  | nil => intro _; rfl
  | cons b t ih =>
    intro hl
    have hb : b < 10 := hl b (by simp)
    have hcmp : nameLe a b = decide (a ≤ b) := nameLe_eq_le_of_lt_ten a ha b hb
    by_cases hab : a ≤ b
    · simp [insertByName, insertNum, hcmp, hab]
    · simp [insertByName, insertNum, hcmp, hab, ih (fun c hc => hl c (by simp [hc]))]

/-- On single-digit data the lexicographic file-name sort of
`_delete_audio_by_index` coincides with the numeric sort. -/
theorem sortByName_eq_sortNumeric :
    ∀ {l : List ℕ}, (∀ a ∈ l, a < 10) → sortByName l = sortNumeric l := by
  intro l
  induction l with
  | nil => intro _; rfl
  | cons a t ih =>
    intro hl
    have ha : a < 10 := hl a (by simp)
    have ht : ∀ b ∈ t, b < 10 := fun b hb => hl b (by simp [hb])
    have h1 : sortByName (a :: t) = insertByName a (sortByName t) := rfl
    have h2 : sortNumeric (a :: t) = insertNum a (sortNumeric t) := rfl
    rw [h1, h2, ih ht]
    exact insertByName_eq_insertNum ha
      (fun b hb => ht b (mem_of_mem_sortNumeric hb))

/-- Numeric insertion grows the length by one. -/
theorem length_insertNum (a : ℕ) :
    ∀ l : List ℕ, (insertNum a l).length = l.length + 1 := by
  intro l
  induction l with
  | nil => rfl
  | cons b t ih =>
    by_cases hab : a ≤ b
    · simp [insertNum, hab]
    · simp [insertNum, hab, ih]

/-- Numeric sorting preserves the length. -/
theorem length_sortNumeric : ∀ l : List ℕ, (sortNumeric l).length = l.length := by
  intro l
  induction l with
  | nil => rfl
  | cons a t ih =>
    have h1 : sortNumeric (a :: t) = insertNum a (sortNumeric t) := rfl
    rw [h1, length_insertNum, ih, List.length_cons]

/-- C5 counterexample. The claim states that `evict(slotIndex)` deletes the
artifact at position `slotIndex` of the ascending numeric-ordinal order,
in particular when surviving ordinals mix single and multiple digits. With
surviving artifacts `audio_2.wav` and `audio_10.wav`, the numeric order
puts ordinal 2 first, so evicting slot 0 should leave `[10]`; the code
sorts file names lexicographically, `audio_10.wav` first, and leaves
`[2]`. -/
theorem c5_counterexample :
    delete_audio_by_index [2, 10] 0 = [2] ∧
      delete_audio_by_index [2, 10] 0
        ≠ List.erase [2, 10] ((sortNumeric [2, 10]).getD 0 0) := by
  refine ⟨by decide, by decide⟩

/-- C5 amended. `_delete_audio_by_index(idx)` deletes the `idx`-th
surviving artifact in ascending lexicographic file-name order; this
coincides with the ascending numeric-ordinal order the claim prescribes
whenever all surviving ordinals are single digit (equal-width names), so
under that restriction the deleted artifact is the `idx`-th one of the
numeric order. -/
theorem c5_delete_by_index_single_digit (l : List ℕ) (j : ℕ)
    (hdigit : ∀ a ∈ l, a < 10) (hj : j < l.length) :
    delete_audio_by_index l j = List.erase l ((sortNumeric l).getD j 0) := by
  have hlen : j < (sortNumeric l).length := by rw [length_sortNumeric]; exact hj
  have hget : (sortByName l).get? j = some ((sortNumeric l).getD j 0) := by
    rw [sortByName_eq_sortNumeric hdigit, List.getD_eq_getElem _ _ hlen,
      List.get?_eq_getElem?, List.getElem?_eq_getElem hlen]
  unfold delete_audio_by_index
  rw [hget]

/-- C5 amended witness. Surviving single-digit artifacts `[3, 1, 2]` with
slot index 1: the numeric order is `[1, 2, 3]`, slot 1 resolves to ordinal
2, and the code deletes exactly that artifact. -/
theorem c5_delete_by_index_single_digit_witness :
    delete_audio_by_index [3, 1, 2] 1 = List.erase [3, 1, 2] ((sortNumeric [3, 1, 2]).getD 1 0) :=
  c5_delete_by_index_single_digit [3, 1, 2] 1 (by decide) (by decide)

/-! ## PIIDetector: phrase structure and token matching

`PIIDetector.detect_pii_tokens` lower-cases the transcript tokens, splits
each detected phrase into lower-cased tokens, builds a nested dictionary
(`pii_chunks_dict`) and then scans every starting position of the
transcript, extending a match until a value `True` is reached. The nested
dictionary is modelled as an association list whose values are either the
terminal marker `True` or a sub-dictionary. -/

/-- Python `str.lower()`, character by character. -/
def pyLower (s : String) : String := String.mk (s.toList.map Char.toLower)

/-- Helper of `pySplit`: accumulate the current word in reverse while
scanning the characters. -/
def splitWsAux : List Char → List Char → List (List Char)
  | [], acc => if acc = [] then [] else [acc.reverse]
  | c :: rest, acc =>
    if c.isWhitespace then
      (if acc = [] then splitWsAux rest [] else acc.reverse :: splitWsAux rest [])
    else splitWsAux rest (c :: acc)

/-- Python `str.split()` with no argument: split on whitespace runs and
drop empty pieces. -/
def pySplit (s : String) : List String := (splitWsAux s.toList []).map String.mk

/-- Value stored in the nested phrase dictionary: the Python code stores
either the literal `True` (end of a chunk) or a nested dictionary. -/
inductive TrieV : Type where
  | term : TrieV
  | sub : List (String × TrieV) → TrieV

/-- Dictionary lookup, first matching key, mirroring Python `d[token]`
after a successful `token in d` test. -/
def lookupA : List (String × TrieV) → String → Option TrieV
  | [], _ => none
  | (k, v) :: rest, t => if k = t then some v else lookupA rest t

/-- Dictionary assignment `d[token] = v`: replace the value of an existing
key, otherwise add the key. -/
def updateKey : List (String × TrieV) → String → TrieV → List (String × TrieV)
  | [], t, v => [(t, v)]
  | (k, w) :: rest, t, v =>
    if k = t then (k, v) :: rest else (k, w) :: updateKey rest t v

/-- Chain built when the insertion loop descends into a freshly created
empty dictionary: each remaining token creates one nested level and the
last token is marked `True`. -/
def buildChain : List String → List (String × TrieV)
  | [] => []
  | [t] => [(t, TrieV.term)]
  | t :: u :: rest => [(t, TrieV.sub (buildChain (u :: rest)))]

/-- Embeds the insertion loop of `detect_pii_tokens` for one chunk token
list: at the last token the current dictionary maps it to `True`
(overwriting any subtree); at an earlier token the loop inserts a fresh
dictionary and descends only when the token is absent — when the token is
already present the loop stays at the same dictionary. -/
def insertTokens : List (String × TrieV) → List String → List (String × TrieV)
  | d, [] => d
  | d, [t] => updateKey d t TrieV.term
  | d, t :: u :: rest =>
    if (lookupA d t).isSome then insertTokens d (u :: rest)
    else updateKey d t (TrieV.sub (buildChain (u :: rest)))

/-- The normalization Python applies to a detected chunk:
`chunk.lower().split()`. -/
def normalizeChunk (p : String) : List String := pySplit (pyLower p)

/-- The nested phrase dictionary `pii_chunks_dict` built by
`detect_pii_tokens` from the list of detected phrase strings. -/
def buildRoot (phrases : List String) : List (String × TrieV) :=
  (phrases.map normalizeChunk).foldl insertTokens []

/-- Embeds the inner matching loop of `detect_pii_tokens` from one start
position: the number of tokens consumed until the first `True` value, or
`none` when the walk leaves the dictionary first. -/
def matchLen (d : List (String × TrieV)) : List String → Option ℕ
  | [] => none
  | t :: rest =>
    match lookupA d t with
    | none => none
    | some TrieV.term => some 1
    | some (TrieV.sub m) => (matchLen m rest).map (· + 1)

/-- Ordinal range contributed by start position `i`: Python
`range(i, j + 1)` on first terminal, empty otherwise. -/
def matchRange (root : List (String × TrieV)) (listTokens : List String) (i : ℕ) : List ℕ :=
  match matchLen root (listTokens.drop i) with
  | some c => List.range' i c
  | none => []

/-- Embeds `PIIDetector.detect_pii_tokens`: lower-case the transcript
words, build the phrase dictionary, and append the matched range of every
start position to the result list. -/
def detect_pii_tokens (phrases words : List String) : List ℕ :=
  let listTokens := words.map pyLower
  let root := buildRoot phrases
  (List.range listTokens.length).foldl (fun acc i => acc ++ matchRange root listTokens i) []

/-- Follows the specification text for the PIIMatcher trie: a phrase (a
nonempty normalized token sequence) ends at a terminal node, and from
start position `i` the match stops at the first terminal reached, i.e. at
the shortest dictionary phrase that is a prefix of the remaining tokens. -/
def specFirstTerminal (chunks : List (List String)) (ts : List String) : Option ℕ :=
  ((chunks.filter (fun c => c ≠ [] ∧ c.isPrefixOf ts)).map List.length).min?

/-- Follows the specification text for the whole matcher: the set of
matched ordinals is the union over every start position `i` of the range
`[i, j]` ending at the first terminal. -/
def specDetectFinset (phrases words : List String) : Finset ℕ :=
  let listTokens := words.map pyLower
  let chunks := phrases.map normalizeChunk
  (Finset.range listTokens.length).biUnion (fun i =>
    match specFirstTerminal chunks (listTokens.drop i) with
    | some c => (List.range' i c).toFinset
    | none => ∅)

/-- C6. The claim states that the matcher output always equals the union,
over all start ordinals, of the first-terminal ranges of the dictionary
trie the specification describes, and gives the example run on phrases
`jean dupont` and `paris`. The example does hold, but the universal
statement fails: on phrases `jean dupont` and `jean martin` the code does
not descend when inserting the already present token `jean`, so `martin`
is registered as a standalone phrase at the top level and the phrase
`jean martin` is lost. On transcript `jean martin` the code returns `[1]`
while the trie of the specification matches `jean martin` and yields
`{0, 1}`. -/
theorem c6_trie_build_divergence :
    detect_pii_tokens ["jean dupont", "paris"]
        ["bonjour", "jean", "dupont", "habite", "paris"] = [1, 2, 4] ∧
      detect_pii_tokens ["jean dupont", "jean martin"] ["jean", "martin"] = [1] ∧
      specDetectFinset ["jean dupont", "jean martin"] ["jean", "martin"] = {0, 1} ∧
      (detect_pii_tokens ["jean dupont", "jean martin"] ["jean", "martin"]).toFinset
        ≠ specDetectFinset ["jean dupont", "jean martin"] ["jean", "martin"] := by
  refine ⟨by decide, by decide, by decide, by decide⟩

/-- Appending-fold form of the matcher accumulates exactly the
concatenation of the per-position contributions. -/
theorem foldl_append_eq_bind (f : ℕ → List ℕ) :
    ∀ (l : List ℕ) (acc : List ℕ),
      l.foldl (fun a i => a ++ f i) acc = acc ++ l.flatMap f := by
  intro l
  induction l with
  | nil => intro acc; simp
  | cons b t ih => intro acc; simp [List.foldl_cons, ih]

/-- C7 counterexample. The claim states that the returned ordinal list
never contains duplicates, being a deduplicated set union. With phrases
`jean dupont` and `dupont` and transcript `jean dupont`, the ranges
`[0, 1]` and `[1, 1]` overlap and the code returns `[0, 1, 1]`, which has
a duplicate. -/
theorem c7_counterexample :
    detect_pii_tokens ["jean dupont", "dupont"] ["jean", "dupont"] = [0, 1, 1] ∧
      ¬ (detect_pii_tokens ["jean dupont", "dupont"] ["jean", "dupont"]).Nodup := by
  refine ⟨by decide, by decide⟩

/-- C7 amended. The matcher returns the concatenation, in start-ordinal
order, of all matched ranges; no deduplication is performed, so as a set
the result equals the union of the matched ranges, but an ordinal covered
by several overlapping matched ranges occurs once per range. -/
theorem c7_ranges_union (phrases words : List String) :
    (detect_pii_tokens phrases words).toFinset
      = (Finset.range words.length).biUnion
          (fun i => (matchRange (buildRoot phrases) (words.map pyLower) i).toFinset) := by
  unfold detect_pii_tokens
  rw [foldl_append_eq_bind]
  ext x
  simp [List.mem_flatMap, Finset.mem_biUnion]


/-! ## Anonymizer: tokens, interval merging and text anonymization

`Anonymizer.audio_anonymization` scans the flagged token indexes, opening
a run at the first index and closing it when the scanned index equals the
last value of the list or the entry after the first occurrence of the
scanned value is not its successor. Token times are rational numbers:
the code only copies them, never computes with them. Failed index lookups
(Python `IndexError`) are modelled by `none`. -/

/-- Transcript token; `stop` embeds the JSON field named `end`. -/
structure Token where
  word : String
  start : ℚ
  stop : ℚ
deriving DecidableEq

/-- Default token used only to give the spec-side map a total lookup. -/
def defaultToken : Token := ⟨"", 0, 0⟩

/-- Embeds the timestamp loop of `Anonymizer.audio_anonymization`. The
list `idxs` is the full `token_indexes` argument — kept whole because the
loop consults `token_indexes[-1]` and `token_indexes.index(i)` — while the
last argument is the suffix still to be scanned. `curStart` is
`current_start` (`None` between runs). -/
def mergeGo (tokens : List Token) (idxs : List ℕ) : Option ℚ → List ℕ → Option (List (ℚ × ℚ))
  | _, [] => some []
  | curStart, i :: rest =>
    (tokens[i]?).bind (fun tok =>
      let cs := curStart.getD tok.start
      if idxs.getLast? = some i then
        (mergeGo tokens idxs none rest).map (fun r => (cs, tok.stop) :: r)
      else
        (idxs[idxs.indexOf i + 1]?).bind (fun nxt =>
          if nxt ≠ i + 1 then
            (mergeGo tokens idxs none rest).map (fun r => (cs, tok.stop) :: r)
          else mergeGo tokens idxs (some cs) rest))

/-- One scan step of `mergeGo`, as a rewriting equation. -/
theorem mergeGo_cons (tokens : List Token) (idxs : List ℕ) (curStart : Option ℚ)
    (i : ℕ) (rest : List ℕ) :
    mergeGo tokens idxs curStart (i :: rest)
      = (tokens[i]?).bind (fun tok =>
          let cs := curStart.getD tok.start
          if idxs.getLast? = some i then
            (mergeGo tokens idxs none rest).map (fun r => (cs, tok.stop) :: r)
          else
            (idxs[idxs.indexOf i + 1]?).bind (fun nxt =>
              if nxt ≠ i + 1 then
                (mergeGo tokens idxs none rest).map (fun r => (cs, tok.stop) :: r)
              else mergeGo tokens idxs (some cs) rest)) := rfl

/-- Embeds `Anonymizer.audio_anonymization` restricted to the timestamp
list it hands to the white-noise collaborator. -/
def audio_anonymization_timestamps (tokens : List Token) (idxs : List ℕ) :
    Option (List (ℚ × ℚ)) :=
  mergeGo tokens idxs none idxs

/-- Follows the specification text for the IntervalMerger run scan: `s` is
the first ordinal of the open run, `c` the current ordinal, and the run
closes when the next ordinal is not `c + 1` or `c` is the last. Returns
the `(runStart, runEnd)` ordinal pairs in order. -/
def chunkGo (s c : ℕ) : List ℕ → List (ℕ × ℕ)
  | [] => [(s, c)]
  | b :: rest => if b = c + 1 then chunkGo s b rest else (s, c) :: chunkGo b b rest

/-- Maximal runs of consecutive integers of a list, as `(start, end)`
ordinal pairs. -/
def chunkRuns : List ℕ → List (ℕ × ℕ)
  | [] => []
  | a :: rest => chunkGo a a rest

/-- Interval rendering of an ordinal run pair:
`(tokens[runStart].start, tokens[runEnd].end)`. -/
def runInterval (tokens : List Token) (p : ℕ × ℕ) : ℚ × ℚ :=
  ((tokens.getD p.1 defaultToken).start, (tokens.getD p.2 defaultToken).stop)

/-- Follows the specification text for the IntervalMerger output: one
interval `(tokens[runStart].start, tokens[runEnd].end)` per maximal run. -/
def specIntervals (tokens : List Token) (idxs : List ℕ) : List (ℚ × ℚ) :=
  (chunkRuns idxs).map (runInterval tokens)

/-- In-range index lookups succeed and agree with the defaulted lookup. -/
theorem getElemQ_eq_some_getD {α : Type} (l : List α) (d : α) {i : ℕ} (h : i < l.length) :
    l[i]? = some (l.getD i d) := by
  rw [List.getD_eq_getElem l d h, List.getElem?_eq_getElem h]

/-- In a pairwise strictly increasing list, the element before a nonempty
tail is not the last element. -/
theorem getLast?_append_cons_ne {pre : List ℕ} {i b : ℕ} {rest : List ℕ}
    (hp : List.Pairwise (· < ·) (pre ++ i :: b :: rest)) :
    (pre ++ i :: b :: rest).getLast? ≠ some i := by
  rw [List.getLast?_append_cons, List.getLast?_cons_cons]
  intro hcontr
  have hmem : i ∈ b :: rest := by
    obtain ⟨h1, h2⟩ := List.mem_getLast?_eq_getLast (Option.mem_def.mpr hcontr)
    rw [h2]
    exact List.getLast_mem h1
  have hp2 := (List.pairwise_append.mp hp).2.1
  exact absurd ((List.pairwise_cons.mp hp2).1 i hmem) (lt_irrefl i)

/-- In a pairwise strictly increasing list, the scanned element does not
occur in the already processed prefix. -/
theorem not_mem_pre {pre rest : List ℕ} {i : ℕ}
    (hp : List.Pairwise (· < ·) (pre ++ i :: rest)) : i ∉ pre := by
  intro hmem
  exact absurd ((List.pairwise_append.mp hp).2.2 i hmem i (by simp)) (lt_irrefl i)

/-- The first occurrence found by Python `token_indexes.index(i)` is the
current scan position when the element is absent from the prefix. -/
theorem indexOf_append_cons {pre : List ℕ} {i : ℕ} (rest : List ℕ) (h : i ∉ pre) :
    (pre ++ i :: rest).indexOf i = pre.length := by
  induction pre with
  | nil => simp
  | cons a t ih =>
    have ha : a ≠ i := fun e => h (by simp [e])
    have ht : i ∉ t := fun hm => h (by simp [hm])
    simp [List.indexOf_cons_ne _ ha, ih ht]

/-- The entry after the current scan position is the head of the remaining
suffix. -/
theorem getElemQ_append_cons_cons (pre : List ℕ) (i b : ℕ) (rest : List ℕ) :
    (pre ++ i :: b :: rest)[pre.length + 1]? = some b := by
  rw [List.getElem?_append_right (by omega : pre.length ≤ pre.length + 1)]
  simp

/-- Opening a run stores the start time of the token at the head, so the
`None` state and the freshly opened state coincide. -/
theorem mergeGo_none_cons (tokens : List Token) (idxs : List ℕ) {b : ℕ} (rest : List ℕ)
    (hb : b < tokens.length) :
    mergeGo tokens idxs none (b :: rest)
      = mergeGo tokens idxs (some ((tokens.getD b defaultToken).start)) (b :: rest) := by
  have hget : tokens[b]? = some (tokens.getD b defaultToken) :=
    getElemQ_eq_some_getD tokens defaultToken hb
  rw [mergeGo_cons, mergeGo_cons, hget]
  simp only [Option.some_bind, Option.getD_some, Option.getD_none]

/-- Core correspondence for C8: scanning the suffix `c :: rest` of a
pairwise strictly increasing index list with a run open since ordinal `s`
emits exactly the intervals of the specification run scan `chunkGo`. -/
theorem mergeGo_some_eq_chunk (tokens : List Token) (l : List ℕ)
    (hp : List.Pairwise (· < ·) l) (hrange : ∀ x ∈ l, x < tokens.length) :
    ∀ (rest pre : List ℕ) (c s : ℕ), l = pre ++ c :: rest →
      mergeGo tokens l (some ((tokens.getD s defaultToken).start)) (c :: rest)
        = some ((chunkGo s c rest).map (runInterval tokens)) := by
  intro rest
  induction rest with
  | nil =>
    intro pre c s hl
    have hc : c < tokens.length := hrange c (by rw [hl]; simp)
    have hgetc : tokens[c]? = some (tokens.getD c defaultToken) :=
      getElemQ_eq_some_getD tokens defaultToken hc
    have hlast : l.getLast? = some c := by
      rw [hl]
      exact List.getLast?_concat pre
    rw [mergeGo_cons, hgetc]
    simp only [Option.some_bind, Option.getD_some]
    rw [if_pos hlast]
    rfl
  | cons b rest' ih =>
    intro pre c s hl
    have hc : c < tokens.length := hrange c (by rw [hl]; simp)
    have hb : b < tokens.length := hrange b (by rw [hl]; simp)
    have hgetc : tokens[c]? = some (tokens.getD c defaultToken) :=
      getElemQ_eq_some_getD tokens defaultToken hc
    have hlast : ¬ l.getLast? = some c := by
      rw [hl]
      exact getLast?_append_cons_ne (hl ▸ hp)
    have hidx : l.indexOf c = pre.length := by
      rw [hl]
      exact indexOf_append_cons _ (not_mem_pre (hl ▸ hp))
    have hnext : l[l.indexOf c + 1]? = some b := by
      rw [hidx, hl]
      exact getElemQ_append_cons_cons pre c b rest'
    have hl2 : l = (pre ++ [c]) ++ b :: rest' := by rw [hl]; simp
    have hchunk : chunkGo s c (b :: rest')
        = if b = c + 1 then chunkGo s b rest' else (s, c) :: chunkGo b b rest' := rfl
    by_cases hbc : b = c + 1
    · have hrec := ih (pre ++ [c]) b s hl2
      rw [mergeGo_cons, hgetc]
      simp only [Option.some_bind, Option.getD_some]
      rw [if_neg hlast, hnext]
      simp only [Option.some_bind]
      rw [if_neg (not_not_intro hbc), hchunk, if_pos hbc]
      exact hrec
    · have hrec := ih (pre ++ [c]) b b hl2
      rw [← mergeGo_none_cons tokens l rest' hb] at hrec
      rw [mergeGo_cons, hgetc]
      simp only [Option.some_bind, Option.getD_some]
      rw [if_neg hlast, hnext]
      simp only [Option.some_bind]
      rw [if_pos hbc, hrec, Option.map_some', hchunk, if_neg hbc]
      rfl


/-- C8. The claim states that for every strictly increasing sequence of
flagged ordinals within the transcript, the merger emits, in order,
exactly one interval `(tokens[runStart].start, tokens[runEnd].end)` per
maximal run of consecutive integers, a run closing exactly when the next
ordinal is not the successor of the current one or the current ordinal is
the last. Confirmed: the scan of `audio_anonymization` equals the
specification run scan `chunkRuns` rendered through `runInterval`. -/
theorem c8_merge_maximal_runs (tokens : List Token) (idxs : List ℕ)
    (hmono : List.Chain' (· < ·) idxs) (hrange : ∀ i ∈ idxs, i < tokens.length) :
    audio_anonymization_timestamps tokens idxs = some (specIntervals tokens idxs) := by
  have hp : List.Pairwise (· < ·) idxs := List.chain'_iff_pairwise.mp hmono
  cases idxs with
  | nil => rfl
  | cons a rest =>
    have ha : a < tokens.length := hrange a (by simp)
    show mergeGo tokens (a :: rest) none (a :: rest)
      = some ((chunkGo a a rest).map (runInterval tokens))
    rw [mergeGo_none_cons tokens (a :: rest) rest ha]
    exact mergeGo_some_eq_chunk tokens (a :: rest) hp hrange rest [] a a rfl

/-- Transcript of the worked example of the claim: tokens 1, 2 and 4 carry
the times `[1.0, 1.5]`, `[1.5, 2.0]` and `[4.0, 4.4]`. -/
def c8Tokens : List Token :=
  [⟨"bonjour", 0, 1⟩, ⟨"jean", 1, 3 / 2⟩, ⟨"dupont", 3 / 2, 2⟩,
    ⟨"habite", 3, 4⟩, ⟨"paris", 4, 22 / 5⟩]

/-- C8 witness: ordinals `{1, 2, 4}` yield `[(1.0, 2.0), (4.0, 4.4)]`. -/
theorem c8_merge_maximal_runs_witness :
    audio_anonymization_timestamps c8Tokens [1, 2, 4]
      = some [((1 : ℚ), (2 : ℚ)), ((4 : ℚ), (22 / 5 : ℚ))] := by
  rw [c8_merge_maximal_runs c8Tokens [1, 2, 4]
    (by norm_num [List.chain'_cons]) (by decide)]
  rfl

/-- Three-token transcript used to exercise the merger on inputs that are
not strictly increasing. -/
def c9Tokens : List Token := [⟨"a", 0, 1⟩, ⟨"b", 1, 2⟩, ⟨"c", 2, 3⟩]

/-- C9 counterexample. The claim states that any input that is not
strictly increasing makes the merger fail (a `PreconditionError`
propagated to the caller, modelled by `none`) rather than produce
intervals. The duplicated input `[1, 1]` is not strictly increasing, yet
the code produces the interval list `[(1, 2), (1, 2)]`: each occurrence of
the value equal to `token_indexes[-1]` closes a run. There is no
precondition check anywhere in `audio_anonymization`. -/
theorem c9_counterexample :
    ¬ List.Chain' (· < ·) [1, 1] ∧
      audio_anonymization_timestamps c9Tokens [1, 1]
        = some [((1 : ℚ), (2 : ℚ)), ((1 : ℚ), (2 : ℚ))] := by
  refine ⟨by norm_num [List.chain'_cons], by decide⟩

/-- The merger scan never fails while every scanned value occurs in the
index list and points inside the transcript: the lookahead
`token_indexes[token_indexes.index(i) + 1]` is evaluated only when `i`
differs from the last value, which forces the first occurrence of `i` to
sit before the last position. -/
theorem mergeGo_isSome (tokens : List Token) (idxs : List ℕ)
    (hrange : ∀ i ∈ idxs, i < tokens.length) :
    ∀ (suffix : List ℕ) (curStart : Option ℚ), (∀ x ∈ suffix, x ∈ idxs) →
      (mergeGo tokens idxs curStart suffix).isSome := by
  intro suffix
  induction suffix with
  | nil => intro _ _; rfl
  | cons i rest ih =>
    intro curStart hsub
    have hi : i ∈ idxs := hsub i (by simp)
    have hget : tokens[i]? = some (tokens.getD i defaultToken) :=
      getElemQ_eq_some_getD tokens defaultToken (hrange i hi)
    have hrest : ∀ x ∈ rest, x ∈ idxs := fun x hx => hsub x (by simp [hx])
    rw [mergeGo_cons, hget]
    simp only [Option.some_bind]
    by_cases hlast : idxs.getLast? = some i
    · rw [if_pos hlast]
      simpa only [Option.isSome_map'] using ih none hrest
    · rw [if_neg hlast]
      have hidxlt : idxs.indexOf i < idxs.length := List.indexOf_lt_length.mpr hi
      have hne : idxs.indexOf i + 1 ≠ idxs.length := by
        intro hcontr
        apply hlast
        have hgetl : idxs[idxs.indexOf i] = i := List.getElem_indexOf hidxlt
        rw [List.getLast?_eq_getElem?, show idxs.length - 1 = idxs.indexOf i by omega,
          List.getElem?_eq_getElem hidxlt, hgetl]
      have hlt : idxs.indexOf i + 1 < idxs.length := by omega
      rw [List.getElem?_eq_getElem hlt]
      simp only [Option.some_bind]
      by_cases hnx : idxs[idxs.indexOf i + 1] ≠ i + 1
      · rw [if_pos hnx]
        simpa only [Option.isSome_map'] using ih none hrest
      · rw [if_neg hnx]
        exact ih (some _) hrest

/-- C9 amended. `audio_anonymization` performs no monotonicity check at
all: for every index list whose ordinals lie inside the transcript —
strictly increasing or not — the merger terminates with an interval list
instead of failing. Only an out-of-range ordinal can make it raise (the
`IndexError` of a failed lookup, modelled by `none`). -/
theorem c9_no_precondition_check (tokens : List Token) (idxs : List ℕ)
    (hrange : ∀ i ∈ idxs, i < tokens.length) :
    (audio_anonymization_timestamps tokens idxs).isSome :=
  mergeGo_isSome tokens idxs hrange idxs none (fun _ hx => hx)

/-- C9 amended witness: the decreasing input `[2, 1]` stays in range of
the three-token transcript and the merger produces a result. -/
theorem c9_no_precondition_check_witness :
    (audio_anonymization_timestamps c9Tokens [2, 1]).isSome :=
  c9_no_precondition_check c9Tokens [2, 1] (by decide)

/-! ## Anonymizer: text anonymization

`Anonymizer.text_anonymization` walks the enumerated tokens and builds the
word list handed to diacritization: a flagged index contributes the marker
only when the previously emitted word is not already the marker, an
unflagged index contributes its own word. -/

/-- The replacement marker of `text_anonymization`. -/
def piiTag : String := "<PII>"

/-- Embeds the word-building loop of `Anonymizer.text_anonymization`
(the text later joined with spaces and sent to diacritization). -/
def text_anonymization_words (tokens : List Token) (tokenIndexes : List ℕ) : List String :=
  (tokens.enum).foldl
    (fun words p =>
      if p.1 ∈ tokenIndexes then
        (if words.getLast? ≠ some piiTag then words ++ [piiTag] else words)
      else words ++ [p.2.word]) []

/-- Follows the claim text: unflagged words are kept in order and each
maximal run of consecutively flagged indexes renders as exactly one
marker. The flag `prev` records whether the previous position was
flagged. -/
def renderRuns (flagged : List ℕ) : Bool → ℕ → List Token → List String
  | _, _, [] => []
  | prev, i, tok :: rest =>
    if i ∈ flagged then
      (if prev then renderRuns flagged true (i + 1) rest
       else piiTag :: renderRuns flagged true (i + 1) rest)
    else tok.word :: renderRuns flagged false (i + 1) rest

/-- One rendering step of `renderRuns`, as a rewriting equation. -/
theorem renderRuns_cons (flagged : List ℕ) (prev : Bool) (i : ℕ) (tok : Token)
    (rest : List Token) :
    renderRuns flagged prev i (tok :: rest)
      = if i ∈ flagged then
          (if prev then renderRuns flagged true (i + 1) rest
           else piiTag :: renderRuns flagged true (i + 1) rest)
        else tok.word :: renderRuns flagged false (i + 1) rest := by
  cases prev <;> rfl

/-- Loop invariant for C10: as long as no transcript word is literally the
marker, the test on the last emitted word coincides with the flag
recording whether the previous position was flagged. -/
theorem textAnon_go (flagged : List ℕ) :
    ∀ (rest : List Token) (i : ℕ) (words : List String) (b : Bool),
      (∀ t ∈ rest, t.word ≠ piiTag) →
      ((words.getLast? = some piiTag) ↔ b = true) →
      (List.enumFrom i rest).foldl
          (fun ws p =>
            if p.1 ∈ flagged then
              (if ws.getLast? ≠ some piiTag then ws ++ [piiTag] else ws)
            else ws ++ [p.2.word]) words
        = words ++ renderRuns flagged b i rest := by
  intro rest
  induction rest with
  | nil =>
    intro i words b _ _
    simp [renderRuns]
  | cons tok rest ih =>
    intro i words b htok hb
    have htokrest : ∀ t ∈ rest, t.word ≠ piiTag := fun t ht => htok t (by simp [ht])
    simp only [List.enumFrom, List.foldl_cons]
    by_cases hf : i ∈ flagged
    · cases b with
      | true =>
        have hlast : words.getLast? = some piiTag := hb.mpr rfl
        rw [if_pos hf, if_neg (not_not_intro hlast),
          ih (i + 1) words true htokrest hb,
          renderRuns_cons, if_pos hf, if_pos rfl]
      | false =>
        have hlast : ¬ words.getLast? = some piiTag := fun e => by simpa using hb.mp e
        have hb2 : ((words ++ [piiTag]).getLast? = some piiTag) ↔ (true = true) := by
          simp
        rw [if_pos hf, if_pos hlast, ih (i + 1) (words ++ [piiTag]) true htokrest hb2,
          renderRuns_cons, if_pos hf, if_neg (by simp)]
        simp
    · have hword : tok.word ≠ piiTag := htok tok (by simp)
      have hb2 : ((words ++ [tok.word]).getLast? = some piiTag) ↔ (false = true) := by
        simp [hword]
      rw [if_neg hf, ih (i + 1) (words ++ [tok.word]) false htokrest hb2,
        renderRuns_cons, if_neg hf]
      simp

/-- C10. The claim states that for every token list none of whose words is
literally the marker and every set of flagged indexes, the word sequence
built before diacritization keeps each unflagged word in original order
and renders each maximal run of consecutively flagged indexes as exactly
one marker. Confirmed: the loop equals the run rendering `renderRuns`. -/
theorem c10_text_collapses_flagged_runs (tokens : List Token) (idxs : List ℕ)
    (h : ∀ t ∈ tokens, t.word ≠ piiTag) :
    text_anonymization_words tokens idxs = renderRuns idxs false 0 tokens := by
  have hb : (([] : List String).getLast? = some piiTag) ↔ (false = true) := by simp
  have hgo := textAnon_go idxs tokens 0 [] false h hb
  simpa [text_anonymization_words] using hgo

/-- Five-token transcript of the worked example, none of whose words is the
marker. -/
def c10Tokens : List Token :=
  [⟨"bonjour", 0, 1⟩, ⟨"jean", 1, 3 / 2⟩, ⟨"dupont", 3 / 2, 2⟩,
    ⟨"habite", 3, 4⟩, ⟨"paris", 4, 22 / 5⟩]

/-- C10 witness: flagged indexes `{1, 2, 4}` collapse into two markers. -/
theorem c10_text_collapses_flagged_runs_witness :
    text_anonymization_words c10Tokens [1, 2, 4]
      = ["bonjour", "<PII>", "habite", "<PII>"] := by
  rw [c10_text_collapses_flagged_runs c10Tokens [1, 2, 4] (by decide)]
  rfl
